import Mathlib

/-!
Verification of the result-normalization pipeline and request-handler control
flow of the parakeet transcription server (`parakeet_server.py`).

The Python values the pipeline manipulates are embedded as the inductive type
`PyVal`; the three pure functions `extract_text`, `clean_text` and
`extract_segments` are translated line by line from the source, with Python
exceptions modelled by `Except PyErr`.  The HTTP handler
`create_transcription` is embedded as a pure function that also records
whether a scratch file was created and the trace of transcribe invocations.
-/

/-- Whitespace as matched by Python's regex class and string strip
(code points of the space, control-whitespace and Unicode space
characters). -/
def isPySpace (c : Char) : Bool :=
  c.toNat = 32 || c.toNat = 9 || c.toNat = 10 || c.toNat = 11 ||
  c.toNat = 12 || c.toNat = 13 ||
  c.toNat = 28 || c.toNat = 29 || c.toNat = 30 || c.toNat = 31 ||
  c.toNat = 133 || c.toNat = 160 || c.toNat = 5760 ||
  (8192 ≤ c.toNat && c.toNat ≤ 8202) ||
  c.toNat = 8232 || c.toNat = 8233 || c.toNat = 8239 || c.toNat = 8287 ||
  c.toNat = 12288

/-- Drop a (maximal) run of leading whitespace, as a greedy leading
regex whitespace-star does. -/
def dropWS (l : List Char) : List Char := l.dropWhile isPySpace

/-- Does the text start with the literal out-of-vocabulary marker,
case-insensitively (pattern fragment of line 335 of the source)? -/
def startsWithUnk : List Char → Bool
  | a :: b :: c :: d :: e :: _ =>
    a = '<' && b.toLower = 'u' && c.toLower = 'n' && d.toLower = 'k' && e = '>'
  | _ => false

/-- Attempt a match of the marker-removal pattern (whitespace-star, marker,
whitespace-star) at the current position; on success return the remainder of
the input after the match. -/
def tryUnkAt (l : List Char) : Option (List Char) :=
  if startsWithUnk (dropWS l) then some (dropWS ((dropWS l).drop 5)) else none

theorem length_dropWS_le (l : List Char) : (dropWS l).length ≤ l.length := by
  induction l with
  | nil => simp [dropWS]
  | cons c cs ih =>
    by_cases h : isPySpace c
    · simpa [dropWS, List.dropWhile, h] using Nat.le_succ_of_le ih
    · simp [dropWS, List.dropWhile, h]

theorem startsWithUnk_length {l : List Char} (h : startsWithUnk l = true) :
    5 ≤ l.length := by
  match l with
  | a :: b :: c :: d :: e :: rest => simp [List.length_cons]
  | [] | [_] | [_, _] | [_, _, _] | [_, _, _, _] => simp [startsWithUnk] at h

theorem tryUnkAt_some_length {l r : List Char} (h : tryUnkAt l = some r) :
    r.length < l.length := by
  unfold tryUnkAt at h
  by_cases hs : startsWithUnk (dropWS l) = true
  · rw [if_pos hs] at h
    have h5 : 5 ≤ (dropWS l).length := startsWithUnk_length hs
    have h1 : (dropWS l).length ≤ l.length := length_dropWS_le l
    have hr : r = dropWS ((dropWS l).drop 5) := (Option.some.inj h).symm
    have h2 : r.length ≤ ((dropWS l).drop 5).length := by
      rw [hr]; exact length_dropWS_le ((dropWS l).drop 5)
    have h3 : ((dropWS l).drop 5).length = (dropWS l).length - 5 := by
      simp
    omega
  · rw [if_neg hs] at h
    exact absurd h (by simp)

/-- Marker-removal substitution: the embedding of
`re.sub(r'\s*<unk>\s*', ' ', text, flags=re.IGNORECASE)` (source line 335).
The scan proceeds left to right; at the leftmost position where the pattern
matches, the match is replaced by one space and the scan resumes after it. -/
def sub1 (l : List Char) : List Char :=
  match h : tryUnkAt l with
  | some rest => ' ' :: sub1 rest
  | none =>
    match l with
    | [] => []
    | c :: cs => c :: sub1 cs
termination_by l.length
decreasing_by
  · exact tryUnkAt_some_length h
  · simp

/-- Whitespace-collapse substitution: the embedding of
`re.sub(r'\s+', ' ', text)` (source line 336): every maximal whitespace run
becomes a single space.  Written as a one-pass transducer: the flag records
that the scanner is inside a whitespace run whose single replacement space
has already been emitted. -/
def sub2Aux : Bool → List Char → List Char
  | _, [] => []
  | true, c :: cs =>
    if isPySpace c then sub2Aux true cs else c :: sub2Aux false cs
  | false, c :: cs =>
    if isPySpace c then ' ' :: sub2Aux true cs else c :: sub2Aux false cs

def sub2 (l : List Char) : List Char := sub2Aux false l

/-- Remove trailing whitespace. -/
def rstripWS (l : List Char) : List Char := (l.reverse.dropWhile isPySpace).reverse

/-- Python `str.strip()`: remove leading and trailing whitespace. -/
def stripWS (l : List Char) : List Char := rstripWS (dropWS l)

/-- The text cleaner `clean_text` (source lines 334-337): remove
out-of-vocabulary markers, collapse whitespace, strip the ends. -/
def clean_text (s : String) : String := String.mk (stripWS (sub2 (sub1 s.data)))

/-- Embedding of the Python values the normalization pipeline manipulates:
strings, numbers, `None`, lists, string-keyed mappings, and attribute-bearing
objects (an object is identified with its attribute dictionary). -/
inductive PyVal where
  | str (s : String)
  | num (n : Int)
  | none
  | list (xs : List PyVal)
  | dict (entries : List (String × PyVal))
  | obj (attrs : List (String × PyVal))

def pyLookup : List (String × PyVal) → String → Option PyVal
  | [], _ => Option.none
  | (k, v) :: rest, key => if k = key then some v else pyLookup rest key

/-- Attribute lookup: only attribute-bearing objects expose the attributes
the pipeline probes for. -/
def PyVal.attr : PyVal → String → Option PyVal
  | .obj attrs, key => pyLookup attrs key
  | _, _ => Option.none

/-- Python `hasattr` restricted to the probed names. -/
def hasattr (v : PyVal) (key : String) : Bool := (v.attr key).isSome

/-- Attribute access; only ever used under a `hasattr` guard in the source. -/
def getattr (v : PyVal) (key : String) : PyVal := (v.attr key).getD PyVal.none

/-- Python `isinstance(v, dict)`. -/
def isDict : PyVal → Bool
  | .dict _ => true
  | _ => false

def isList : PyVal → Bool
  | .list _ => true
  | _ => false

def isStr : PyVal → Bool
  | .str _ => true
  | _ => false

def strOf : PyVal → String
  | .str s => s
  | _ => ""

/-- Python `v.get(key, dflt)` on a mapping. -/
def dictGet (v : PyVal) (key : String) (dflt : PyVal) : PyVal :=
  match v with
  | .dict es => (pyLookup es key).getD dflt
  | _ => dflt

/-- Python `key in v` on a mapping. -/
def dictHasKey (v : PyVal) (key : String) : Bool :=
  match v with
  | .dict es => (pyLookup es key).isSome
  | _ => false

/-- Python truthiness of the embedded values. -/
def truthy : PyVal → Bool
  | .str s => !s.isEmpty
  | .num n => !(n == 0)
  | .none => false
  | .list xs => !xs.isEmpty
  | .dict es => !es.isEmpty
  | .obj _ => true

/-- The quote character used by Python container rendering. -/
def pyQuote : String := String.singleton (Char.ofNat 39)

mutual

/-- Python `repr` of an embedded value (the rendering used inside
containers); the address-dependent rendering of a plain object is abstracted
to a fixed tag. -/
def pyRepr : PyVal → String
  | .str s => pyQuote ++ s ++ pyQuote
  | .num n => toString n
  | .none => "None"
  | .list xs => "[" ++ pyReprList xs ++ "]"
  | .dict es => "\x7b" ++ pyReprPairs es ++ "\x7d"
  | .obj _ => "<object>"

def pyReprList : List PyVal → String
  | [] => ""
  | [v] => pyRepr v
  | v :: rest => pyRepr v ++ ", " ++ pyReprList rest

def pyReprPairs : List (String × PyVal) → String
  | [] => ""
  | [(k, v)] => pyQuote ++ k ++ pyQuote ++ ": " ++ pyRepr v
  | (k, v) :: rest =>
    pyQuote ++ k ++ pyQuote ++ ": " ++ pyRepr v ++ ", " ++ pyReprPairs rest

end

/-- Python `str(v)`. -/
def pyStr : PyVal → String
  | .str s => s
  | v => pyRepr v

/-- A Python exception, as far as the handler distinguishes them:
`TypeError` (the one kind it catches) versus everything else. -/
inductive PyErr where
  | typeError
  | other (msg : String)
deriving DecidableEq

/-- Python iteration (`for x in v`): lists yield their elements, strings
their characters, mappings their keys; other values are not iterable. -/
def pyIter (v : PyVal) : Except PyErr (List PyVal) :=
  match v with
  | .list xs => .ok xs
  | .str s => .ok (s.data.map (fun c => PyVal.str (String.singleton c)))
  | .dict es => .ok (es.map (fun kv => PyVal.str kv.1))
  | _ => .error .typeError

/-- Per-segment text resolution used in the attribute branch (source lines
326 and 345): attribute `text` if present, else mapping key `text` with
empty-string default, else the string conversion of the element. -/
def resolveTextA (seg : PyVal) : PyVal :=
  if hasattr seg "text" then getattr seg "text"
  else if isDict seg then dictGet seg "text" (PyVal.str "")
  else PyVal.str (pyStr seg)

/-- Per-segment text resolution used in the mapping branch (source lines
330 and 359): mapping key `text` with empty-string default, else the string
conversion; attributes are not consulted. -/
def resolveTextM (seg : PyVal) : PyVal :=
  if isDict seg then dictGet seg "text" (PyVal.str "")
  else PyVal.str (pyStr seg)

/-- Space-separated join of strings, as `' '.join` produces on a list of
strings. -/
def joinSp : List String → String
  | [] => ""
  | [s] => s
  | s :: rest => s ++ " " ++ joinSp rest

/-- Python `' '.join(items)`: raises `TypeError` at the first element that
is not a string. -/
def joinTexts : List PyVal → Except PyErr String
  | [] => .ok ""
  | v :: rest =>
    match v with
    | .str s =>
      match rest with
      | [] => .ok s
      | _ => (joinTexts rest).map (fun t => s ++ " " ++ t)
    | _ => .error .typeError

/-- The text extractor `extract_text` (source lines 323-332), with Python
exceptions modelled by `Except`. -/
def extract_text (r : PyVal) : Except PyErr PyVal :=
  if hasattr r "text" then
    if hasattr r "segments" && truthy (getattr r "segments") then
      match pyIter (getattr r "segments") with
      | .error e => .error e
      | .ok segs => (joinTexts (segs.map resolveTextA)).map PyVal.str
    else .ok (getattr r "text")
  else if isDict r then
    if dictHasKey r "segments" && truthy (dictGet r "segments" PyVal.none) then
      match pyIter (dictGet r "segments" PyVal.none) with
      | .error e => .error e
      | .ok segs => (joinTexts (segs.map resolveTextM)).map PyVal.str
    else
      let tv := dictGet r "text" (PyVal.str "")
      .ok (if truthy tv then tv else PyVal.str (pyStr r))
  else .ok (PyVal.str (pyStr r))

/-- A normalized segment record: `text` always set, timing fields present
only when set (the embedding of the `seg_dict` mappings of lines 344-365). -/
structure NormalizedSegment where
  text : PyVal
  start : Option PyVal
  «end» : Option PyVal

/-- Normalization of one raw segment element in the attribute branch
(source lines 344-355). -/
def normalizeSegA (seg : PyVal) : NormalizedSegment :=
  { text := resolveTextA seg
    start :=
      if hasattr seg "start" then some (getattr seg "start")
      else if isDict seg && dictHasKey seg "start" then
        some (dictGet seg "start" PyVal.none)
      else Option.none
    «end» :=
      if hasattr seg "end" then some (getattr seg "end")
      else if isDict seg && dictHasKey seg "end" then
        some (dictGet seg "end" PyVal.none)
      else Option.none }

/-- Normalization of one raw segment element in the mapping branch
(source lines 358-365). -/
def normalizeSegM (seg : PyVal) : NormalizedSegment :=
  { text := resolveTextM seg
    start :=
      if isDict seg && dictHasKey seg "start" then
        some (dictGet seg "start" PyVal.none)
      else Option.none
    «end» :=
      if isDict seg && dictHasKey seg "end" then
        some (dictGet seg "end" PyVal.none)
      else Option.none }

/-- The segment normalizer `extract_segments` (source lines 339-367):
`Option.none` is the explicit absence marker returned instead of an empty
sequence. -/
def extract_segments (r : PyVal) :
    Except PyErr (Option (List NormalizedSegment)) :=
  if hasattr r "segments" && truthy (getattr r "segments") then
    match pyIter (getattr r "segments") with
    | .error e => .error e
    | .ok segs =>
      let out := segs.map normalizeSegA
      .ok (if out.isEmpty then Option.none else some out)
  else if isDict r && (dictHasKey r "segments" &&
      truthy (dictGet r "segments" PyVal.none)) then
    match pyIter (dictGet r "segments" PyVal.none) with
    | .error e => .error e
    | .ok segs =>
      let out := segs.map normalizeSegM
      .ok (if out.isEmpty then Option.none else some out)
  else .ok Option.none

/-- The segment elements a raw result exposes to `extract_segments`
(empty when it exposes none). -/
def segElemsOf (v : PyVal) : List PyVal :=
  match v with
  | .list xs => xs
  | _ => []

/-- Well-formedness of a raw result according to the data model of the
specification: a `text` attribute or truthy `text` key holds a string, an
exposed truthy `segments` value is a list, and every segment element's
resolved text is a string. -/
def WFRaw (r : PyVal) : Bool :=
  match r with
  | .obj _ =>
    (if hasattr r "segments" && truthy (getattr r "segments") then
       isList (getattr r "segments") &&
         (segElemsOf (getattr r "segments")).all (fun s => isStr (resolveTextA s))
     else true) &&
    (if hasattr r "text" && !(hasattr r "segments" && truthy (getattr r "segments")) then
       isStr (getattr r "text")
     else true)
  | .dict _ =>
    if dictHasKey r "segments" && truthy (dictGet r "segments" PyVal.none) then
      isList (dictGet r "segments" PyVal.none) &&
        (segElemsOf (dictGet r "segments" PyVal.none)).all
          (fun s => isStr (resolveTextM s))
    else
      !(truthy (dictGet r "text" (PyVal.str ""))) ||
        isStr (dictGet r "text" (PyVal.str ""))
  | _ => true

/-- The response model of the endpoint (`TranscriptionResponse`,
source lines 146-149). -/
structure TranscriptionResponse where
  text : String
  recording_timestamp : Option String
  segments : Option (List NormalizedSegment)

/-- What the handler hands back to the framework: an `HTTPException`, an
uncaught exception propagating out (a 500-class failure), a bare text body,
or the structured JSON record. -/
inductive Outcome where
  | httpError (status : Nat) (detail : String)
  | raised (e : PyErr)
  | textBody (body : String)
  | jsonBody (resp : TranscriptionResponse)

/-- The opaque transcribe capability: its result may depend on whether the
language hint is passed, and a failure is a `PyErr`. -/
structure Capability where
  call : Bool → Except PyErr PyVal

/-- The observable effects of one request: the outcome, whether a scratch
file was created, and the trace of transcribe invocations (`true` marks a
call with the language hint). -/
structure HandlerResult where
  outcome : Outcome
  scratchCreated : Bool
  calls : List Bool

/-- The normalize-and-respond tail of the handler (source lines 404-414):
clean the extracted text, extract segments, then shape the response by the
declared format. -/
def runPipeline (r : PyVal) (response_format : Option String)
    (recording_timestamp : Option String) : Outcome :=
  match extract_text r with
  | .error e => .raised e
  | .ok tv =>
    match tv with
    | .str s =>
      let t := clean_text s
      match extract_segments r with
      | .error e => .raised e
      | .ok segs =>
        if response_format.getD "json" = "text" then .textBody t
        else .jsonBody ⟨t, recording_timestamp, segs⟩
    | _ => .raised .typeError

def MAX_FILE_SIZE : Nat := 100 * 1024 * 1024

/-- The request handler `create_transcription` (source lines 374-419):
model precondition, upload validation, scratch file, transcribe invocation
with the one-shot fallback on `TypeError`, then the normalization pipeline.
The form value `response_format` defaults to `"json"` when omitted. -/
def create_transcription (m : Option Capability) (filename : Option String)
    (content : List Nat) (response_format : Option String)
    (recording_timestamp : Option String) : HandlerResult :=
  match m with
  | Option.none => ⟨.httpError 500 "Model not loaded", false, []⟩
  | some cap =>
    if filename = Option.none ∨ filename = some "" then
      ⟨.httpError 400 "No filename provided", false, []⟩
    else if MAX_FILE_SIZE < content.length then
      ⟨.httpError 400 "File too large. Maximum size is 100MB", false, []⟩
    else if content.length = 0 then
      ⟨.httpError 400 "Empty file provided", false, []⟩
    else
      match cap.call true with
      | .ok r => ⟨runPipeline r response_format recording_timestamp, true, [true]⟩
      | .error .typeError =>
        match cap.call false with
        | .ok r =>
          ⟨runPipeline r response_format recording_timestamp, true, [true, false]⟩
        | .error e => ⟨.raised e, true, [true, false]⟩
      | .error e => ⟨.raised e, true, [true]⟩

/-- The list of raw segment elements `extract_segments` iterates over
(empty when it takes neither branch). -/
def rawSegs (r : PyVal) : List PyVal :=
  if hasattr r "segments" && truthy (getattr r "segments") then
    segElemsOf (getattr r "segments")
  else if isDict r && (dictHasKey r "segments" &&
      truthy (dictGet r "segments" PyVal.none)) then
    segElemsOf (dictGet r "segments" PyVal.none)
  else []

/-- Does the text contain an occurrence of the out-of-vocabulary marker
(case-insensitively)? -/
def hasUnk : List Char → Bool
  | [] => false
  | c :: rest => startsWithUnk (c :: rest) || hasUnk rest

/-- Is the first character (if any) a non-whitespace character? -/
def headNotSpace : List Char → Bool
  | [] => true
  | c :: _ => !isPySpace c

/-- Whitespace-normal form: every whitespace character is a plain space and
no two whitespace characters are adjacent. -/
def collapsed : List Char → Bool
  | [] => true
  | c :: rest =>
    (!isPySpace c || (c == ' ' && headNotSpace rest)) && collapsed rest

/-! ### Reduction helpers for the request handler -/

/-- On a loaded model and a valid upload, the handler reduces to the
transcribe invocation with its one-shot fallback. -/
theorem create_transcription_valid (cap : Capability) (fn : Option String)
    (content : List Nat) (rf rt : Option String)
    (hfn : ¬(fn = Option.none ∨ fn = some ""))
    (hsz : content.length ≤ MAX_FILE_SIZE)
    (hne : content.length ≠ 0) :
    create_transcription (some cap) fn content rf rt =
      match cap.call true with
      | .ok r => ⟨runPipeline r rf rt, true, [true]⟩
      | .error .typeError =>
        match cap.call false with
        | .ok r => ⟨runPipeline r rf rt, true, [true, false]⟩
        | .error e => ⟨.raised e, true, [true, false]⟩
      | .error e => ⟨.raised e, true, [true]⟩ := by
  simp only [create_transcription]
  rw [if_neg hfn, if_neg (Nat.not_lt.mpr hsz), if_neg hne]

/-- Claim C9: with no inference capability loaded, every request fails
immediately with a 500, before any scratch file is created and with no
transcribe invocation. -/
theorem C9_no_model_500 (fn : Option String) (content : List Nat)
    (rf rt : Option String) :
    create_transcription Option.none fn content rf rt =
      ⟨Outcome.httpError 500 "Model not loaded", false, []⟩ := rfl

/-- Claim C10: with a loaded model, a missing filename, an empty upload, or
an upload over 100 MiB is rejected with a 400 before any scratch file is
created and without invoking the transcribe capability. -/
theorem C10_upload_validation (cap : Capability) (fn : Option String)
    (content : List Nat) (rf rt : Option String)
    (hbad : fn = Option.none ∨ fn = some "" ∨ content = [] ∨
      MAX_FILE_SIZE < content.length) :
    ∃ d, create_transcription (some cap) fn content rf rt =
      ⟨Outcome.httpError 400 d, false, []⟩ := by
  by_cases hf : fn = Option.none ∨ fn = some ""
  · refine ⟨"No filename provided", ?_⟩
    simp only [create_transcription]
    rw [if_pos hf]
  · rcases hbad with h | h | h | h
    · exact absurd (Or.inl h) hf
    · exact absurd (Or.inr h) hf
    · refine ⟨"Empty file provided", ?_⟩
      simp only [create_transcription]
      rw [if_neg hf, if_neg (by simp [h, MAX_FILE_SIZE]), if_pos (by simp [h])]
    · refine ⟨"File too large. Maximum size is 100MB", ?_⟩
      simp only [create_transcription]
      rw [if_neg hf, if_pos h]

/-- Witness for C10 at a concrete input: an upload with no filename is
rejected with a 400, no scratch file, no transcribe call. -/
theorem C10_upload_validation_witness :
    ∃ d, create_transcription (some ⟨fun _ => Except.ok (PyVal.str "x")⟩)
        Option.none [0] Option.none Option.none =
      ⟨Outcome.httpError 400 d, false, []⟩ :=
  C10_upload_validation ⟨fun _ => Except.ok (PyVal.str "x")⟩ Option.none [0]
    Option.none Option.none (Or.inl rfl)

/-- Claim C7: a `TypeError` from the hinted transcribe call triggers exactly
one retry without the hint and is never surfaced; any other failure
propagates with no retry; a success is not retried. -/
theorem C7_retry_on_type_error (cap : Capability) (fn : Option String)
    (content : List Nat) (rf rt : Option String)
    (hfn : ¬(fn = Option.none ∨ fn = some ""))
    (hsz : content.length ≤ MAX_FILE_SIZE)
    (hne : content.length ≠ 0) :
    (cap.call true = Except.error PyErr.typeError →
      (create_transcription (some cap) fn content rf rt).calls = [true, false] ∧
      (∀ r, cap.call false = Except.ok r →
        (create_transcription (some cap) fn content rf rt).outcome =
          runPipeline r rf rt) ∧
      (∀ e, cap.call false = Except.error e →
        (create_transcription (some cap) fn content rf rt).outcome =
          Outcome.raised e)) ∧
    (∀ m, cap.call true = Except.error (PyErr.other m) →
      (create_transcription (some cap) fn content rf rt).calls = [true] ∧
      (create_transcription (some cap) fn content rf rt).outcome =
        Outcome.raised (PyErr.other m)) ∧
    (∀ r, cap.call true = Except.ok r →
      (create_transcription (some cap) fn content rf rt).calls = [true]) := by
  have hv := create_transcription_valid cap fn content rf rt hfn hsz hne
  refine ⟨fun hte => ?_, fun m hm => ?_, fun r hr => ?_⟩
  · rw [hv, hte]
    refine ⟨?_, fun r hr2 => ?_, fun e he2 => ?_⟩
    · cases h2 : cap.call false <;> simp [h2]
    · rw [hr2]
    · rw [he2]
  · rw [hv, hm]
    exact ⟨rfl, rfl⟩
  · rw [hv, hr]

/-- Witness for C7: a capability that rejects the hint with `TypeError` and
succeeds without it is invoked exactly twice, and the result is the retried
one. -/
theorem C7_retry_on_type_error_witness :
    (create_transcription
        (some ⟨fun b => if b then Except.error PyErr.typeError
                        else Except.ok (PyVal.str "hi")⟩)
        (some "a.wav") [0] Option.none Option.none).calls = [true, false] ∧
    (create_transcription
        (some ⟨fun b => if b then Except.error PyErr.typeError
                        else Except.ok (PyVal.str "hi")⟩)
        (some "a.wav") [0] Option.none Option.none).outcome =
      runPipeline (PyVal.str "hi") Option.none Option.none := by
  have h := (C7_retry_on_type_error
    ⟨fun b => if b then Except.error PyErr.typeError
              else Except.ok (PyVal.str "hi")⟩
    (some "a.wav") [0] Option.none Option.none
    (by simp) (by simp [MAX_FILE_SIZE]) (by simp)).1 rfl
  exact ⟨h.1, h.2.1 (PyVal.str "hi") rfl⟩

/-- Claim C8: only the literal declared format `"text"` yields the bare
plain-text body; every other declared value, including omission, yields the
structured JSON record with the request's `recording_timestamp` echoed
verbatim. -/
theorem C8_response_shape (cap : Capability) (fn : Option String)
    (content : List Nat) (rf rt : Option String) (r : PyVal) (s : String)
    (segs : Option (List NormalizedSegment))
    (hfn : ¬(fn = Option.none ∨ fn = some ""))
    (hsz : content.length ≤ MAX_FILE_SIZE)
    (hne : content.length ≠ 0)
    (hcall : cap.call true = Except.ok r)
    (htext : extract_text r = Except.ok (PyVal.str s))
    (hsegs : extract_segments r = Except.ok segs) :
    (rf = some "text" →
      (create_transcription (some cap) fn content rf rt).outcome =
        Outcome.textBody (clean_text s)) ∧
    (rf ≠ some "text" →
      (create_transcription (some cap) fn content rf rt).outcome =
        Outcome.jsonBody ⟨clean_text s, rt, segs⟩) := by
  have hv := create_transcription_valid cap fn content rf rt hfn hsz hne
  have houtcome : (create_transcription (some cap) fn content rf rt).outcome =
      runPipeline r rf rt := by
    rw [hv, hcall]
  have hp : runPipeline r rf rt =
      if rf.getD "json" = "text" then Outcome.textBody (clean_text s)
      else Outcome.jsonBody ⟨clean_text s, rt, segs⟩ := by
    simp only [runPipeline]
    rw [htext, hsegs]
  constructor
  · intro hrf
    rw [houtcome, hp, hrf]
    simp
  · intro hrf
    rw [houtcome, hp]
    have : rf.getD "json" ≠ "text" := by
      cases rf with
      | none => simp
      | some v =>
        simp only [Option.getD]
        intro hv2
        exact hrf (by rw [hv2])
    rw [if_neg this]

/-- Witness for C8 at a concrete request: format `"text"` gives the bare
cleaned transcript, an omitted format gives the JSON record with the
timestamp echoed. -/
theorem C8_response_shape_witness :
    (create_transcription
        (some ⟨fun _ => Except.ok (PyVal.str "Hello world")⟩)
        (some "a.wav") [0] (some "text") (some "ts")).outcome =
      Outcome.textBody (clean_text "Hello world") ∧
    (create_transcription
        (some ⟨fun _ => Except.ok (PyVal.str "Hello world")⟩)
        (some "a.wav") [0] Option.none (some "ts")).outcome =
      Outcome.jsonBody ⟨clean_text "Hello world", some "ts", Option.none⟩ := by
  constructor
  · exact (C8_response_shape ⟨fun _ => Except.ok (PyVal.str "Hello world")⟩
      (some "a.wav") [0] (some "text") (some "ts") (PyVal.str "Hello world")
      "Hello world" Option.none (by simp) (by simp [MAX_FILE_SIZE]) (by simp)
      rfl rfl rfl).1 rfl
  · exact (C8_response_shape ⟨fun _ => Except.ok (PyVal.str "Hello world")⟩
      (some "a.wav") [0] Option.none (some "ts") (PyVal.str "Hello world")
      "Hello world" Option.none (by simp) (by simp [MAX_FILE_SIZE]) (by simp)
      rfl rfl rfl).2 (by simp)

/-! ### Branch lemmas for the extraction pipeline -/

theorem joinTexts_all (l : List PyVal) (h : ∀ v ∈ l, isStr v = true) :
    joinTexts l = Except.ok (joinSp (l.map strOf)) := by
  induction l with
  | nil => rfl
  | cons v rest ih =>
    have hv : isStr v = true := h v (List.mem_cons_self v rest)
    cases v <;> simp [isStr] at hv
    rename_i s
    cases rest with
    | nil => rfl
    | cons w rest2 =>
      have ih2 := ih (fun x hx => h x (List.mem_cons_of_mem _ hx))
      show Except.map (fun t => s ++ " " ++ t) (joinTexts (w :: rest2)) = _
      rw [ih2]
      rfl

theorem getattr_obj_of_lookup {attrs : List (String × PyVal)} {k : String}
    {v : PyVal} (h : pyLookup attrs k = some v) :
    getattr (PyVal.obj attrs) k = v := by
  simp [getattr, PyVal.attr, h]

theorem hasattr_obj_of_lookup {attrs : List (String × PyVal)} {k : String}
    {v : PyVal} (h : pyLookup attrs k = some v) :
    hasattr (PyVal.obj attrs) k = true := by
  simp [hasattr, PyVal.attr, h]

theorem extract_segments_attr_list {attrs : List (String × PyVal)}
    {xs : List PyVal} (hseg : pyLookup attrs "segments" = some (PyVal.list xs))
    (hne : xs ≠ []) :
    extract_segments (PyVal.obj attrs) =
      Except.ok (some (xs.map normalizeSegA)) := by
  obtain ⟨y, ys, rfl⟩ := List.exists_cons_of_ne_nil hne
  have h1 := hasattr_obj_of_lookup hseg
  have h2 := getattr_obj_of_lookup hseg
  simp [extract_segments, h1, h2, truthy, pyIter]

theorem extract_segments_dict_list {es : List (String × PyVal)}
    {xs : List PyVal} (hseg : pyLookup es "segments" = some (PyVal.list xs))
    (hne : xs ≠ []) :
    extract_segments (PyVal.dict es) =
      Except.ok (some (xs.map normalizeSegM)) := by
  obtain ⟨y, ys, rfl⟩ := List.exists_cons_of_ne_nil hne
  simp [extract_segments, hasattr, PyVal.attr, isDict, dictHasKey, dictGet,
    hseg, truthy, pyIter]

theorem extract_segments_absent {r : PyVal}
    (h1 : (hasattr r "segments" && truthy (getattr r "segments")) = false)
    (h2 : (isDict r && (dictHasKey r "segments" &&
      truthy (dictGet r "segments" PyVal.none))) = false) :
    extract_segments r = Except.ok Option.none := by
  simp only [extract_segments, h1, h2]
  rfl

theorem extract_text_attr_join {attrs : List (String × PyVal)}
    {xs : List PyVal} (htext : hasattr (PyVal.obj attrs) "text" = true)
    (hseg : pyLookup attrs "segments" = some (PyVal.list xs)) (hne : xs ≠ [])
    (hall : ∀ v ∈ xs, isStr (resolveTextA v) = true) :
    extract_text (PyVal.obj attrs) =
      Except.ok (PyVal.str (joinSp (xs.map (fun v => strOf (resolveTextA v))))) := by
  obtain ⟨y, ys, rfl⟩ := List.exists_cons_of_ne_nil hne
  have h1 := hasattr_obj_of_lookup hseg
  have h2 := getattr_obj_of_lookup hseg
  have hj := joinTexts_all ((y :: ys).map resolveTextA)
    (fun v hv => by
      obtain ⟨w, hw, rfl⟩ := List.mem_map.mp hv
      exact hall w hw)
  simp only [List.map_cons, List.map_map, Function.comp] at hj
  simp [extract_text, htext, h1, h2, truthy, pyIter, hj, List.map_map,
    Function.comp]
  rfl

theorem extract_text_dict_join {es : List (String × PyVal)}
    {xs : List PyVal} (hseg : pyLookup es "segments" = some (PyVal.list xs))
    (hne : xs ≠ []) (hall : ∀ v ∈ xs, isStr (resolveTextM v) = true) :
    extract_text (PyVal.dict es) =
      Except.ok (PyVal.str (joinSp (xs.map (fun v => strOf (resolveTextM v))))) := by
  obtain ⟨y, ys, rfl⟩ := List.exists_cons_of_ne_nil hne
  have hj := joinTexts_all ((y :: ys).map resolveTextM)
    (fun v hv => by
      obtain ⟨w, hw, rfl⟩ := List.mem_map.mp hv
      exact hall w hw)
  simp only [List.map_cons, List.map_map, Function.comp] at hj
  simp [extract_text, hasattr, PyVal.attr, isDict, dictHasKey, dictGet,
    hseg, truthy, pyIter, hj, List.map_map, Function.comp]
  rfl

theorem extract_text_attr_text {attrs : List (String × PyVal)}
    (htext : hasattr (PyVal.obj attrs) "text" = true)
    (hseg : (hasattr (PyVal.obj attrs) "segments" &&
      truthy (getattr (PyVal.obj attrs) "segments")) = false) :
    extract_text (PyVal.obj attrs) =
      Except.ok (getattr (PyVal.obj attrs) "text") := by
  simp only [extract_text, htext, hseg]
  rfl

theorem extract_text_dict_nosegs {es : List (String × PyVal)}
    (hseg : (dictHasKey (PyVal.dict es) "segments" &&
      truthy (dictGet (PyVal.dict es) "segments" PyVal.none)) = false) :
    extract_text (PyVal.dict es) =
      Except.ok (if truthy (dictGet (PyVal.dict es) "text" (PyVal.str "")) then
        dictGet (PyVal.dict es) "text" (PyVal.str "")
      else PyVal.str (pyStr (PyVal.dict es))) := by
  simp only [extract_text, hasattr, PyVal.attr, Option.isSome_none,
    Bool.false_eq_true, if_false, isDict, if_true, hseg]

theorem extract_text_fallback {r : PyVal} (h1 : hasattr r "text" = false)
    (h2 : isDict r = false) :
    extract_text r = Except.ok (PyVal.str (pyStr r)) := by
  simp only [extract_text, h1, h2]
  rfl

theorem hasattr_nonobj {r : PyVal} {k : String}
    (h : ∀ attrs, r ≠ PyVal.obj attrs) : hasattr r k = false := by
  cases r with
  | obj attrs => exact absurd rfl (h attrs)
  | _ => rfl

theorem obj_of_segments_cond {r : PyVal}
    (h : (hasattr r "segments" && truthy (getattr r "segments")) = true) :
    ∃ attrs, r = PyVal.obj attrs := by
  cases r <;> simp [hasattr, PyVal.attr] at h
  exact ⟨_, rfl⟩

theorem dict_of_isDict {r : PyVal} (h : isDict r = true) :
    ∃ es, r = PyVal.dict es := by
  cases r <;> simp [isDict] at h
  exact ⟨_, rfl⟩

theorem WF_obj_segList {attrs : List (String × PyVal)}
    (hwf : WFRaw (PyVal.obj attrs) = true)
    (hA : (hasattr (PyVal.obj attrs) "segments" &&
      truthy (getattr (PyVal.obj attrs) "segments")) = true) :
    ∃ xs, pyLookup attrs "segments" = some (PyVal.list xs) ∧ xs ≠ [] ∧
      ∀ v ∈ xs, isStr (resolveTextA v) = true := by
  have hh : hasattr (PyVal.obj attrs) "segments" = true := by
    cases hx : hasattr (PyVal.obj attrs) "segments" <;> simp [hx] at hA ⊢
  obtain ⟨v, hv⟩ : ∃ v, pyLookup attrs "segments" = some v := by
    simpa [hasattr, PyVal.attr, Option.isSome_iff_exists] using hh
  have hg : getattr (PyVal.obj attrs) "segments" = v := getattr_obj_of_lookup hv
  simp only [WFRaw] at hwf
  rw [Bool.and_eq_true] at hwf
  obtain ⟨h1, _⟩ := hwf
  rw [if_pos hA, hg, Bool.and_eq_true] at h1
  obtain ⟨hlist, hall⟩ := h1
  obtain ⟨xs, rfl⟩ : ∃ xs, v = PyVal.list xs := by
    cases v <;> simp [isList] at hlist
    exact ⟨_, rfl⟩
  have htr : truthy (PyVal.list xs) = true := by
    rw [Bool.and_eq_true] at hA
    rcases hA with ⟨_, h2⟩
    rwa [hg] at h2
  have hne : xs ≠ [] := by
    simpa [truthy, List.isEmpty_iff] using htr
  refine ⟨xs, hv, hne, ?_⟩
  intro w hw
  exact List.all_eq_true.mp (by simpa [segElemsOf] using hall) w hw

theorem WF_dict_segList {es : List (String × PyVal)}
    (hwf : WFRaw (PyVal.dict es) = true)
    (hB : (dictHasKey (PyVal.dict es) "segments" &&
      truthy (dictGet (PyVal.dict es) "segments" PyVal.none)) = true) :
    ∃ xs, pyLookup es "segments" = some (PyVal.list xs) ∧ xs ≠ [] ∧
      ∀ v ∈ xs, isStr (resolveTextM v) = true := by
  have hh : dictHasKey (PyVal.dict es) "segments" = true := by
    cases hx : dictHasKey (PyVal.dict es) "segments" <;> simp [hx] at hB ⊢
  obtain ⟨v, hv⟩ : ∃ v, pyLookup es "segments" = some v := by
    simpa [dictHasKey, Option.isSome_iff_exists] using hh
  have hg : dictGet (PyVal.dict es) "segments" PyVal.none = v := by
    simp [dictGet, hv]
  simp only [WFRaw] at hwf
  rw [if_pos hB, hg, Bool.and_eq_true] at hwf
  obtain ⟨hlist, hall⟩ := hwf
  obtain ⟨xs, rfl⟩ : ∃ xs, v = PyVal.list xs := by
    cases v <;> simp [isList] at hlist
    exact ⟨_, rfl⟩
  have htr : truthy (PyVal.list xs) = true := by
    rw [Bool.and_eq_true] at hB
    rcases hB with ⟨_, h2⟩
    rwa [hg] at h2
  have hne : xs ≠ [] := by
    simpa [truthy, List.isEmpty_iff] using htr
  refine ⟨xs, hv, hne, ?_⟩
  intro w hw
  exact List.all_eq_true.mp (by simpa [segElemsOf] using hall) w hw

/-- Claim C1: on every well-formed raw result, `extract_segments` returns
the absence marker or a non-empty sequence with exactly one normalized
record per raw segment element in the original order; empty or missing
segments give the absence marker, never an empty sequence. -/
theorem C1_segments_shape (r : PyVal) (hwf : WFRaw r = true) :
    ∃ o, extract_segments r = Except.ok o ∧ o ≠ some [] ∧
      (rawSegs r = [] → o = Option.none) ∧
      (rawSegs r ≠ [] →
        o = some ((rawSegs r).map
          (if hasattr r "segments" && truthy (getattr r "segments") then
            normalizeSegA
          else normalizeSegM))) := by
  by_cases hA : (hasattr r "segments" && truthy (getattr r "segments")) = true
  · obtain ⟨attrs, rfl⟩ := obj_of_segments_cond hA
    obtain ⟨xs, hv, hne, _⟩ := WF_obj_segList hwf hA
    have hr : rawSegs (PyVal.obj attrs) = xs := by
      simp only [rawSegs]
      rw [if_pos hA, getattr_obj_of_lookup hv]
      rfl
    refine ⟨some (xs.map normalizeSegA), extract_segments_attr_list hv hne,
      ?_, ?_, ?_⟩
    · simp [hne]
    · intro h0
      exact absurd (hr ▸ h0) hne
    · intro _
      rw [hr, if_pos hA]
  · by_cases hB : (isDict r && (dictHasKey r "segments" &&
        truthy (dictGet r "segments" PyVal.none))) = true
    · have hB2 := hB
      rw [Bool.and_eq_true] at hB2
      obtain ⟨hd, hkey⟩ := hB2
      obtain ⟨es, rfl⟩ := dict_of_isDict hd
      obtain ⟨xs, hv, hne, _⟩ := WF_dict_segList hwf hkey
      have hr : rawSegs (PyVal.dict es) = xs := by
        simp only [rawSegs]
        rw [if_neg hA, if_pos hB,
          show dictGet (PyVal.dict es) "segments" PyVal.none = PyVal.list xs
            from by simp [dictGet, hv]]
        rfl
      refine ⟨some (xs.map normalizeSegM), extract_segments_dict_list hv hne,
        ?_, ?_, ?_⟩
      · simp [hne]
      · intro h0
        exact absurd (hr ▸ h0) hne
      · intro _
        rw [hr, if_neg hA]
    · have hA2 : (hasattr r "segments" && truthy (getattr r "segments")) = false :=
        Bool.not_eq_true _ ▸ Bool.of_not_eq_true hA
      have hB2 : (isDict r && (dictHasKey r "segments" &&
          truthy (dictGet r "segments" PyVal.none))) = false :=
        Bool.not_eq_true _ ▸ Bool.of_not_eq_true hB
      refine ⟨Option.none, extract_segments_absent hA2 hB2, by simp, fun _ => rfl,
        fun h0 => ?_⟩
      exact absurd (by simp [rawSegs, hA2, hB2]) h0

/-- Witness for C1: both the empty segment sequence and the missing key
yield the absence marker. -/
theorem C1_segments_shape_witness :
    extract_segments (PyVal.dict [("segments", PyVal.list [])]) =
      Except.ok Option.none ∧
    extract_segments (PyVal.dict []) = Except.ok Option.none := by
  constructor
  · obtain ⟨o, h1, _, h3, _⟩ :=
      C1_segments_shape (PyVal.dict [("segments", PyVal.list [])]) rfl
    rw [h1, h3 rfl]
  · obtain ⟨o, h1, _, h3, _⟩ := C1_segments_shape (PyVal.dict []) rfl
    rw [h1, h3 rfl]

/-- Claim C3: on every well-formed raw result, `extract_text` never raises
and returns a string; unrecognized shapes fall back to the string conversion
of the whole value. -/
theorem C3_extract_text_total (r : PyVal) (hwf : WFRaw r = true) :
    (∃ s, extract_text r = Except.ok (PyVal.str s)) ∧
    (hasattr r "text" = false → isDict r = false →
      extract_text r = Except.ok (PyVal.str (pyStr r))) := by
  refine ⟨?_, fun h1 h2 => extract_text_fallback h1 h2⟩
  cases r with
  | obj attrs =>
    by_cases ht : hasattr (PyVal.obj attrs) "text" = true
    · by_cases hs : (hasattr (PyVal.obj attrs) "segments" &&
          truthy (getattr (PyVal.obj attrs) "segments")) = true
      · obtain ⟨xs, hv, hne, hall⟩ := WF_obj_segList hwf hs
        exact ⟨_, extract_text_attr_join ht hv hne hall⟩
      · have hs2 : (hasattr (PyVal.obj attrs) "segments" &&
            truthy (getattr (PyVal.obj attrs) "segments")) = false :=
          Bool.not_eq_true _ ▸ Bool.of_not_eq_true hs
        have hstr : isStr (getattr (PyVal.obj attrs) "text") = true := by
          simp only [WFRaw] at hwf
          rw [Bool.and_eq_true] at hwf
          obtain ⟨_, h2⟩ := hwf
          have hcond : (hasattr (PyVal.obj attrs) "text" &&
              !(hasattr (PyVal.obj attrs) "segments" &&
                truthy (getattr (PyVal.obj attrs) "segments"))) = true := by
            rw [ht, hs2]
            rfl
          rwa [if_pos hcond] at h2
        obtain ⟨s, hsv⟩ : ∃ s, getattr (PyVal.obj attrs) "text" = PyVal.str s := by
          cases hg : getattr (PyVal.obj attrs) "text" <;> rw [hg] at hstr <;>
            simp [isStr] at hstr
          exact ⟨_, rfl⟩
        exact ⟨s, by rw [extract_text_attr_text ht hs2, hsv]⟩
    · have ht2 : hasattr (PyVal.obj attrs) "text" = false :=
        Bool.not_eq_true _ ▸ Bool.of_not_eq_true ht
      exact ⟨_, extract_text_fallback ht2 rfl⟩
  | dict es =>
    by_cases hk : (dictHasKey (PyVal.dict es) "segments" &&
        truthy (dictGet (PyVal.dict es) "segments" PyVal.none)) = true
    · obtain ⟨xs, hv, hne, hall⟩ := WF_dict_segList hwf hk
      exact ⟨_, extract_text_dict_join hv hne hall⟩
    · have hk2 : (dictHasKey (PyVal.dict es) "segments" &&
          truthy (dictGet (PyVal.dict es) "segments" PyVal.none)) = false :=
        Bool.not_eq_true _ ▸ Bool.of_not_eq_true hk
      have hx := extract_text_dict_nosegs hk2
      by_cases htr : truthy (dictGet (PyVal.dict es) "text" (PyVal.str "")) = true
      · have hstr : isStr (dictGet (PyVal.dict es) "text" (PyVal.str "")) = true := by
          simp only [WFRaw] at hwf
          rw [if_neg (by simp [hk2])] at hwf
          rw [htr] at hwf
          simpa using hwf
        obtain ⟨s, hsv⟩ : ∃ s,
            dictGet (PyVal.dict es) "text" (PyVal.str "") = PyVal.str s := by
          cases hg : dictGet (PyVal.dict es) "text" (PyVal.str "") <;>
            rw [hg] at hstr <;> simp [isStr] at hstr
          exact ⟨_, rfl⟩
        exact ⟨s, by rw [hx, if_pos htr, hsv]⟩
      · exact ⟨pyStr (PyVal.dict es), by rw [hx, if_neg htr]⟩
  | str s => exact ⟨_, extract_text_fallback rfl rfl⟩
  | num n => exact ⟨_, extract_text_fallback rfl rfl⟩
  | none => exact ⟨_, extract_text_fallback rfl rfl⟩
  | list xs => exact ⟨_, extract_text_fallback rfl rfl⟩

/-- Witness for C3: at the unrecognized shape `None`, extraction returns
the textual rendering of `None`. -/
theorem C3_extract_text_total_witness :
    extract_text PyVal.none = Except.ok (PyVal.str "None") :=
  (C3_extract_text_total PyVal.none rfl).2 rfl rfl

/-- Counterexample to claim C2 as stated: an attribute-bearing object with a
non-empty `segments` attribute but no `text` attribute does not get the
segment join — the extractor falls through to the string conversion of the
whole object. -/
theorem C2_counterexample :
    extract_text (PyVal.obj [("segments",
        PyVal.list [PyVal.dict [("text", PyVal.str "a")],
          PyVal.dict [("text", PyVal.str "b")]])]) ≠
      Except.ok (PyVal.str "a b") := by
  intro h
  have h0 : extract_text (PyVal.obj [("segments",
      PyVal.list [PyVal.dict [("text", PyVal.str "a")],
        PyVal.dict [("text", PyVal.str "b")]])]) =
      Except.ok (PyVal.str "<object>") := rfl
  rw [h0] at h
  injection h with h1
  injection h1 with h2
  exact absurd h2 (by decide)

/-- Claim C2 (amended): for every attribute-bearing raw result object that
exposes a `text` attribute and a non-empty list `segments` attribute (with
string-resolved segment texts), `extract_text` joins the per-segment
resolved texts with single spaces, in order — segments win over the `text`
attribute. -/
theorem C2_segments_precedence (attrs : List (String × PyVal))
    (xs : List PyVal) (htext : hasattr (PyVal.obj attrs) "text" = true)
    (hseg : pyLookup attrs "segments" = some (PyVal.list xs)) (hne : xs ≠ [])
    (hall : ∀ v ∈ xs, isStr (resolveTextA v) = true) :
    extract_text (PyVal.obj attrs) =
      Except.ok (PyVal.str (joinSp (xs.map (fun v => strOf (resolveTextA v))))) :=
  extract_text_attr_join htext hseg hne hall

/-- Witness for amended C2: with both `text="ignored"` and two segments,
the segments win and the result is the joined text. -/
theorem C2_segments_precedence_witness :
    extract_text (PyVal.obj [("text", PyVal.str "ignored"),
      ("segments", PyVal.list [PyVal.dict [("text", PyVal.str "a")],
        PyVal.dict [("text", PyVal.str "b")]])]) =
      Except.ok (PyVal.str "a b") := by
  have h := C2_segments_precedence
    [("text", PyVal.str "ignored"),
      ("segments", PyVal.list [PyVal.dict [("text", PyVal.str "a")],
        PyVal.dict [("text", PyVal.str "b")]])]
    [PyVal.dict [("text", PyVal.str "a")], PyVal.dict [("text", PyVal.str "b")]]
    rfl rfl (by simp) (by decide)
  exact h

/-- Counterexample to claim C5 as stated: a mapping segment element without
a `"text"` key resolves to the empty string, not to the element's string
conversion. -/
theorem C5_counterexample :
    extract_segments (PyVal.dict [("segments",
        PyVal.list [PyVal.dict [("start", PyVal.num 1)]])]) =
      Except.ok (some [⟨PyVal.str "", some (PyVal.num 1), Option.none⟩]) ∧
    PyVal.str "" ≠ PyVal.str (pyStr (PyVal.dict [("start", PyVal.num 1)])) := by
  refine ⟨rfl, fun h => ?_⟩
  injection h with h2
  exact absurd h2 (by decide)

/-- Claim C5 (amended): segment text resolution never raises; in the
attribute branch it is the `text` attribute, else the `"text"` key with
empty-string default for mappings, else the string conversion; in the
mapping branch attributes are not consulted and the `"text"` key (with
empty-string default) applies to mappings, else the string conversion. -/
theorem C5_text_resolution :
    (∀ attrs xs, pyLookup attrs "segments" = some (PyVal.list xs) → xs ≠ [] →
      ∃ l, extract_segments (PyVal.obj attrs) = Except.ok (some l) ∧
        l.map (fun n => n.text) = xs.map resolveTextA) ∧
    (∀ es xs, pyLookup es "segments" = some (PyVal.list xs) → xs ≠ [] →
      ∃ l, extract_segments (PyVal.dict es) = Except.ok (some l) ∧
        l.map (fun n => n.text) = xs.map resolveTextM) ∧
    (∀ seg, hasattr seg "text" = false → isDict seg = false →
      resolveTextA seg = PyVal.str (pyStr seg) ∧
      resolveTextM seg = PyVal.str (pyStr seg)) ∧
    (∀ attrs xs, hasattr (PyVal.obj attrs) "text" = true →
      pyLookup attrs "segments" = some (PyVal.list xs) → xs ≠ [] →
      (∀ v ∈ xs, isStr (resolveTextA v) = true) →
      extract_text (PyVal.obj attrs) =
        Except.ok (PyVal.str (joinSp (xs.map (fun v => strOf (resolveTextA v)))))) ∧
    (∀ es xs, pyLookup es "segments" = some (PyVal.list xs) → xs ≠ [] →
      (∀ v ∈ xs, isStr (resolveTextM v) = true) →
      extract_text (PyVal.dict es) =
        Except.ok (PyVal.str (joinSp (xs.map (fun v => strOf (resolveTextM v)))))) := by
  refine ⟨fun attrs xs hseg hne => ?_, fun es xs hseg hne => ?_,
    fun seg h1 h2 => ?_, fun attrs xs ht hseg hne hall =>
      extract_text_attr_join ht hseg hne hall,
    fun es xs hseg hne hall => extract_text_dict_join hseg hne hall⟩
  · refine ⟨xs.map normalizeSegA, extract_segments_attr_list hseg hne, ?_⟩
    rw [List.map_map]
    rfl
  · refine ⟨xs.map normalizeSegM, extract_segments_dict_list hseg hne, ?_⟩
    rw [List.map_map]
    rfl
  · constructor
    · simp [resolveTextA, h1, h2]
    · simp [resolveTextM, h2]

/-- Witness for amended C5: a bare string and a number as segment elements
degenerate to their string conversions without raising. -/
theorem C5_text_resolution_witness :
    extract_segments (PyVal.dict [("segments",
        PyVal.list [PyVal.str "x", PyVal.num 7])]) =
      Except.ok (some [⟨PyVal.str "x", Option.none, Option.none⟩,
        ⟨PyVal.str "7", Option.none, Option.none⟩]) ∧
    resolveTextA (PyVal.num 7) = PyVal.str (pyStr (PyVal.num 7)) ∧
    resolveTextM (PyVal.num 7) = PyVal.str (pyStr (PyVal.num 7)) := by
  have h := C5_text_resolution.2.2.1 (PyVal.num 7) rfl rfl
  exact ⟨rfl, h.1, h.2⟩

/-- Counterexample to claim C6 as stated: a segment that is an
attribute-bearing object with a `start` attribute, reached through the
mapping branch, loses its timing — presence in the source does not imply
presence in the record. -/
theorem C6_counterexample :
    extract_segments (PyVal.dict [("segments",
        PyVal.list [PyVal.obj [("text", PyVal.str "w"), ("start", PyVal.num 1)]])]) =
      Except.ok (some [⟨PyVal.str (pyStr
          (PyVal.obj [("text", PyVal.str "w"), ("start", PyVal.num 1)])),
        Option.none, Option.none⟩]) ∧
    hasattr (PyVal.obj [("text", PyVal.str "w"), ("start", PyVal.num 1)])
      "start" = true :=
  ⟨rfl, rfl⟩

theorem normalizeSegA_start_isSome (s : PyVal) :
    (normalizeSegA s).start.isSome =
      (hasattr s "start" || (isDict s && dictHasKey s "start")) := by
  simp only [normalizeSegA]
  cases h1 : hasattr s "start" <;>
    cases h2 : (isDict s && dictHasKey s "start") <;> simp [h1, h2]

theorem normalizeSegA_end_isSome (s : PyVal) :
    (normalizeSegA s).«end».isSome =
      (hasattr s "end" || (isDict s && dictHasKey s "end")) := by
  simp only [normalizeSegA]
  cases h1 : hasattr s "end" <;>
    cases h2 : (isDict s && dictHasKey s "end") <;> simp [h1, h2]

theorem normalizeSegM_start_isSome (s : PyVal) :
    (normalizeSegM s).start.isSome = (isDict s && dictHasKey s "start") := by
  simp only [normalizeSegM]
  cases h2 : (isDict s && dictHasKey s "start") <;> simp [h2]

theorem normalizeSegM_end_isSome (s : PyVal) :
    (normalizeSegM s).«end».isSome = (isDict s && dictHasKey s "end") := by
  simp only [normalizeSegM]
  cases h2 : (isDict s && dictHasKey s "end") <;> simp [h2]

/-- Claim C6 (amended): each timing field is present in a normalized record
exactly when the processing branch finds it — attribute else mapping key in
the attribute branch, mapping key only in the mapping branch — and the two
fields are handled independently. -/
theorem C6_timing_presence :
    (∀ attrs xs, pyLookup attrs "segments" = some (PyVal.list xs) → xs ≠ [] →
      ∃ l, extract_segments (PyVal.obj attrs) = Except.ok (some l) ∧
        l.map (fun n => n.start.isSome) =
          xs.map (fun s => hasattr s "start" || (isDict s && dictHasKey s "start")) ∧
        l.map (fun n => n.«end».isSome) =
          xs.map (fun s => hasattr s "end" || (isDict s && dictHasKey s "end"))) ∧
    (∀ es xs, pyLookup es "segments" = some (PyVal.list xs) → xs ≠ [] →
      ∃ l, extract_segments (PyVal.dict es) = Except.ok (some l) ∧
        l.map (fun n => n.start.isSome) =
          xs.map (fun s => isDict s && dictHasKey s "start") ∧
        l.map (fun n => n.«end».isSome) =
          xs.map (fun s => isDict s && dictHasKey s "end")) := by
  constructor
  · intro attrs xs hseg hne
    refine ⟨xs.map normalizeSegA, extract_segments_attr_list hseg hne, ?_, ?_⟩
    · rw [List.map_map]
      simp [Function.comp, normalizeSegA_start_isSome]
    · rw [List.map_map]
      simp [Function.comp, normalizeSegA_end_isSome]
  · intro es xs hseg hne
    refine ⟨xs.map normalizeSegM, extract_segments_dict_list hseg hne, ?_, ?_⟩
    · rw [List.map_map]
      simp [Function.comp, normalizeSegM_start_isSome]
    · rw [List.map_map]
      simp [Function.comp, normalizeSegM_end_isSome]

/-- Witness for amended C6: the mapping segment with only `start` keeps
`start` and has no `end` field at all. -/
theorem C6_timing_presence_witness :
    extract_segments (PyVal.dict [("segments",
        PyVal.list [PyVal.dict [("text", PyVal.str "w"), ("start", PyVal.num 1)]])]) =
      Except.ok (some [⟨PyVal.str "w", some (PyVal.num 1), Option.none⟩]) ∧
    [(⟨PyVal.str "w", some (PyVal.num 1), Option.none⟩ : NormalizedSegment)].map
        (fun n => n.start.isSome) =
      [PyVal.dict [("text", PyVal.str "w"), ("start", PyVal.num 1)]].map
        (fun s => isDict s && dictHasKey s "start") ∧
    [(⟨PyVal.str "w", some (PyVal.num 1), Option.none⟩ : NormalizedSegment)].map
        (fun n => n.«end».isSome) =
      [PyVal.dict [("text", PyVal.str "w"), ("start", PyVal.num 1)]].map
        (fun s => isDict s && dictHasKey s "end") := by
  obtain ⟨l, h1, h2, h3⟩ := C6_timing_presence.2
    [("segments", PyVal.list [PyVal.dict [("text", PyVal.str "w"),
      ("start", PyVal.num 1)]])]
    [PyVal.dict [("text", PyVal.str "w"), ("start", PyVal.num 1)]] rfl (by simp)
  have h0 : extract_segments (PyVal.dict [("segments",
      PyVal.list [PyVal.dict [("text", PyVal.str "w"), ("start", PyVal.num 1)]])]) =
      Except.ok (some [⟨PyVal.str "w", some (PyVal.num 1), Option.none⟩]) := rfl
  rw [h0] at h1
  have hl : l = [⟨PyVal.str "w", some (PyVal.num 1), Option.none⟩] :=
    (Option.some.inj (Except.ok.inj h1)).symm
  rw [hl] at h2 h3
  exact ⟨h0, h2, h3⟩

/-! ### Character-class and scanning lemmas for the text cleaner -/

theorem isPySpace_not_upper {x : Char} (hx : isPySpace x = true) :
    ¬(65 ≤ x.toNat ∧ x.toNat ≤ 90) := by
  simp only [isPySpace, Bool.or_eq_true, Bool.and_eq_true,
    decide_eq_true_eq] at hx
  omega

theorem isPySpace_toLower {x : Char} (hx : isPySpace x = true) :
    x.toLower = x := by
  have h := isPySpace_not_upper hx
  simp only [Char.toLower]
  rw [if_neg]
  simp only [Bool.and_eq_true, decide_eq_true_eq, ge_iff_le]
  omega

theorem toLower_target_not_space {x c : Char} (hc : isPySpace c = false)
    (h : x.toLower = c) : isPySpace x = false := by
  cases hs : isPySpace x
  · rfl
  · rw [isPySpace_toLower hs] at h
    rw [h] at hs
    rw [hs] at hc
    cases hc

theorem dropWhile_head_false {α : Type} {p : α → Bool} :
    ∀ {l : List α} {c : α} {cs : List α}, l.dropWhile p = c :: cs → p c = false := by
  intro l
  induction l with
  | nil => intro c cs h; simp [List.dropWhile] at h
  | cons a as ih =>
    intro c cs h
    by_cases hp : p a = true
    · rw [List.dropWhile_cons_of_pos hp] at h
      exact ih h
    · have hp2 : p a = false := by
        cases hpa : p a
        · rfl
        · exact absurd hpa hp
      rw [List.dropWhile_cons_of_neg hp] at h
      cases h
      exact hp2

theorem dropWhile_self {α : Type} {p : α → Bool} (l : List α) :
    (l.dropWhile p).dropWhile p = l.dropWhile p := by
  cases h : l.dropWhile p with
  | nil => rfl
  | cons c cs => rw [List.dropWhile_cons_of_neg (by rw [dropWhile_head_false h]; simp)]

theorem sub1_some {l rest : List Char} (h : tryUnkAt l = some rest) :
    sub1 l = ' ' :: sub1 rest := by
  rw [sub1]
  split
  · rename_i r heq
    rw [h] at heq
    rw [Option.some.inj heq]
  · rename_i heq
    rw [h] at heq
    cases heq

theorem sub1_none_cons {c : Char} {cs : List Char}
    (h : tryUnkAt (c :: cs) = none) : sub1 (c :: cs) = c :: sub1 cs := by
  rw [sub1]
  split
  · rename_i r heq
    rw [h] at heq
    cases heq
  · rfl

theorem sub1_nil : sub1 [] = [] := by
  rw [sub1]
  split
  · rename_i r heq
    simp [tryUnkAt, startsWithUnk, dropWS] at heq
  · rfl

theorem sub2Aux_true_cons (c : Char) (cs : List Char) :
    sub2Aux true (c :: cs) =
      if isPySpace c then sub2Aux true cs else c :: sub2Aux false cs := rfl

theorem sub2Aux_false_cons (c : Char) (cs : List Char) :
    sub2Aux false (c :: cs) =
      if isPySpace c then ' ' :: sub2Aux true cs else c :: sub2Aux false cs := rfl

theorem startsWithUnk_inv {l : List Char} (h : startsWithUnk l = true) :
    ∃ a b c d e t, l = a :: b :: c :: d :: e :: t ∧ a = '<' ∧
      b.toLower = 'u' ∧ c.toLower = 'n' ∧ d.toLower = 'k' ∧ e = '>' := by
  match l with
  | a :: b :: c :: d :: e :: t =>
    simp only [startsWithUnk, Bool.and_eq_true, decide_eq_true_eq] at h
    exact ⟨a, b, c, d, e, t, rfl, h.1.1.1.1, h.1.1.1.2, h.1.1.2, h.1.2, h.2⟩
  | [] | [_] | [_, _] | [_, _, _] | [_, _, _, _] => simp [startsWithUnk] at h

theorem startsWithUnk_build {a b c d e : Char} (t : List Char) (h1 : a = '<')
    (h2 : b.toLower = 'u') (h3 : c.toLower = 'n') (h4 : d.toLower = 'k')
    (h5 : e = '>') : startsWithUnk (a :: b :: c :: d :: e :: t) = true := by
  simp [startsWithUnk, h1, h2, h3, h4, h5]

theorem startsWithUnk_append {l1 l2 : List Char}
    (h : startsWithUnk l1 = true) : startsWithUnk (l1 ++ l2) = true := by
  obtain ⟨a, b, c, d, e, t, rfl, h1, h2, h3, h4, h5⟩ := startsWithUnk_inv h
  exact startsWithUnk_build (t ++ l2) h1 h2 h3 h4 h5

theorem hasUnk_append_right {l1 l2 : List Char}
    (h : hasUnk (l1 ++ l2) = false) : hasUnk l2 = false := by
  induction l1 with
  | nil => exact h
  | cons c cs ih =>
    rw [List.cons_append, hasUnk] at h
    rcases Bool.or_eq_false_iff.mp h with ⟨_, h2⟩
    exact ih h2

theorem hasUnk_append_left {l1 l2 : List Char}
    (h : hasUnk (l1 ++ l2) = false) : hasUnk l1 = false := by
  induction l1 with
  | nil => rfl
  | cons c cs ih =>
    rw [List.cons_append, hasUnk] at h
    rcases Bool.or_eq_false_iff.mp h with ⟨h1, h2⟩
    rw [hasUnk]
    rw [Bool.or_eq_false_iff]
    refine ⟨?_, ih h2⟩
    cases hs : startsWithUnk (c :: cs)
    · rfl
    · have h3 := @startsWithUnk_append (c :: cs) l2 hs
      rw [List.cons_append] at h3
      rw [h1] at h3
      cases h3

theorem hasUnk_dropWhile {p : Char → Bool} {l : List Char}
    (h : hasUnk l = false) : hasUnk (l.dropWhile p) = false := by
  have ht : l = l.takeWhile p ++ l.dropWhile p :=
    (List.takeWhile_append_dropWhile p l).symm
  rw [ht] at h
  exact hasUnk_append_right h

theorem rstripWS_decomp (l : List Char) : ∃ t, l = rstripWS l ++ t := by
  refine ⟨(l.reverse.takeWhile isPySpace).reverse, ?_⟩
  rw [rstripWS, ← List.reverse_append,
    List.takeWhile_append_dropWhile isPySpace l.reverse,
    List.reverse_reverse]

theorem hasUnk_rstripWS {l : List Char} (h : hasUnk l = false) :
    hasUnk (rstripWS l) = false := by
  obtain ⟨t, ht⟩ := rstripWS_decomp l
  rw [ht] at h
  exact hasUnk_append_left h

theorem startsWithUnk_false_of_noUnk {l : List Char}
    (h : hasUnk l = false) : startsWithUnk l = false := by
  cases l with
  | nil => rfl
  | cons c cs =>
    rw [hasUnk] at h
    exact (Bool.or_eq_false_iff.mp h).1

theorem tryUnkAt_none_of_noUnk {l : List Char} (h : hasUnk l = false) :
    tryUnkAt l = none := by
  have h2 : startsWithUnk (dropWS l) = false :=
    startsWithUnk_false_of_noUnk (hasUnk_dropWhile h)
  rw [tryUnkAt, if_neg]
  rw [h2]
  simp

theorem sub1_of_noUnk {l : List Char} (h : hasUnk l = false) : sub1 l = l := by
  induction l with
  | nil => exact sub1_nil
  | cons c cs ih =>
    rw [sub1_none_cons (tryUnkAt_none_of_noUnk h)]
    rw [hasUnk] at h
    rw [ih (Bool.or_eq_false_iff.mp h).2]

theorem unkTail_not_space {b c d e : Char} (h2 : b.toLower = 'u')
    (h3 : c.toLower = 'n') (h4 : d.toLower = 'k') (h5 : e = '>') :
    ∀ x ∈ [b, c, d, e], isPySpace x = false := by
  intro x hx
  simp only [List.mem_cons, List.not_mem_nil, or_false] at hx
  rcases hx with rfl | rfl | rfl | rfl
  · exact toLower_target_not_space (by decide) h2
  · exact toLower_target_not_space (by decide) h3
  · exact toLower_target_not_space (by decide) h4
  · rw [h5]
    decide

theorem startsWithUnk_false_of_head {c : Char} (hc : c ≠ '<')
    (v : List Char) : startsWithUnk (c :: v) = false := by
  cases hs : startsWithUnk (c :: v)
  · rfl
  · exfalso
    obtain ⟨a, b, c2, d, e, t, heq, h1, _, _, _, _⟩ := startsWithUnk_inv hs
    exact hc ((List.cons.inj heq).1.trans h1 ▸ rfl)

theorem sub1_lift : ∀ {m q t : List Char},
    (∀ x ∈ q, isPySpace x = false) → sub1 m = q ++ t →
    ∃ t2, m = q ++ t2 := by
  intro m
  induction m with
  | nil =>
    intro q t hq h
    rw [sub1_nil] at h
    obtain ⟨rfl, rfl⟩ := List.append_eq_nil.mp h.symm
    exact ⟨[], rfl⟩
  | cons c cs ih =>
    intro q t hq h
    cases htry : tryUnkAt (c :: cs) with
    | some rest =>
      rw [sub1_some htry] at h
      cases q with
      | nil => exact ⟨c :: cs, rfl⟩
      | cons x q2 =>
        have hx : (' ' : Char) = x := (List.cons.inj h).1
        have hsp := hq x (by simp)
        rw [← hx] at hsp
        exact absurd hsp (by decide)
    | none =>
      rw [sub1_none_cons htry] at h
      cases q with
      | nil => exact ⟨c :: cs, rfl⟩
      | cons x q2 =>
        obtain ⟨hx, hrest⟩ := List.cons.inj h
        obtain ⟨t2, ht2⟩ := ih (fun y hy => hq y (by simp [hy])) hrest
        exact ⟨t2, by rw [List.cons_append, ← hx, ht2]⟩

theorem hasUnk_sub1 (l : List Char) : hasUnk (sub1 l) = false := by
  cases htry : tryUnkAt l with
  | some rest =>
    have ih := hasUnk_sub1 rest
    rw [sub1_some htry, hasUnk, ih,
      startsWithUnk_false_of_head (by decide) (sub1 rest)]
    rfl
  | none =>
    cases l with
    | nil => rw [sub1_nil]; rfl
    | cons c cs =>
      have ih := hasUnk_sub1 cs
      rw [sub1_none_cons htry, hasUnk, ih]
      have hsw : startsWithUnk (c :: sub1 cs) = false := by
        cases hs : startsWithUnk (c :: sub1 cs)
        · rfl
        · exfalso
          obtain ⟨a, b, c2, d, e, t, heq, h1, hu, hn, hk, hgt⟩ :=
            startsWithUnk_inv hs
          obtain ⟨hca, hrest⟩ := List.cons.inj heq
          obtain ⟨t2, ht2⟩ := sub1_lift (unkTail_not_space hu hn hk hgt) hrest
          have hbuild : startsWithUnk (c :: cs) = true := by
            rw [ht2]
            exact startsWithUnk_build t2 (hca.trans h1) hu hn hk hgt
          have hlt : isPySpace c = false := by
            rw [hca.trans h1]
            decide
          have htry2 : tryUnkAt (c :: cs) = some (dropWS ((c :: cs).drop 5)) := by
            rw [tryUnkAt]
            rw [show dropWS (c :: cs) = c :: cs from by
              rw [dropWS, List.dropWhile_cons_of_neg (by simp [hlt])]]
            rw [if_pos hbuild]
          rw [htry] at htry2
          cases htry2
      rw [hsw]
      rfl
  termination_by l.length
  decreasing_by
  all_goals first
    | exact tryUnkAt_some_length htry
    | simp

theorem sub2Aux_lift : ∀ {m q t : List Char},
    (∀ x ∈ q, isPySpace x = false) → sub2Aux false m = q ++ t →
    ∃ t2, m = q ++ t2 := by
  intro m
  induction m with
  | nil =>
    intro q t hq h
    obtain ⟨rfl, rfl⟩ := List.append_eq_nil.mp h.symm
    exact ⟨[], rfl⟩
  | cons c cs ih =>
    intro q t hq h
    rw [sub2Aux_false_cons] at h
    by_cases hc : isPySpace c = true
    · rw [if_pos hc] at h
      cases q with
      | nil => exact ⟨c :: cs, rfl⟩
      | cons x q2 =>
        have hx : (' ' : Char) = x := (List.cons.inj h).1
        have hsp := hq x (by simp)
        rw [← hx] at hsp
        exact absurd hsp (by decide)
    · rw [if_neg hc] at h
      cases q with
      | nil => exact ⟨c :: cs, rfl⟩
      | cons x q2 =>
        obtain ⟨hx, hrest⟩ := List.cons.inj h
        obtain ⟨t2, ht2⟩ := ih (fun y hy => hq y (by simp [hy])) hrest
        exact ⟨t2, by rw [List.cons_append, ← hx, ht2]⟩

theorem hasUnk_sub2Aux : ∀ (b : Bool) (l : List Char), hasUnk l = false →
    hasUnk (sub2Aux b l) = false := by
  intro b l
  induction l generalizing b with
  | nil => intro _; cases b <;> rfl
  | cons c cs ih =>
    intro h
    rw [hasUnk] at h
    obtain ⟨h1, h2⟩ := Bool.or_eq_false_iff.mp h
    by_cases hc : isPySpace c = true
    · cases b with
      | true =>
        rw [sub2Aux_true_cons, if_pos hc]
        exact ih true h2
      | false =>
        rw [sub2Aux_false_cons, if_pos hc, hasUnk, ih true h2,
          startsWithUnk_false_of_head (by decide) (sub2Aux true cs)]
        rfl
    · have hred : sub2Aux b (c :: cs) = c :: sub2Aux false cs := by
        cases b
        · rw [sub2Aux_false_cons, if_neg hc]
        · rw [sub2Aux_true_cons, if_neg hc]
      rw [hred, hasUnk, ih false h2]
      have hsw : startsWithUnk (c :: sub2Aux false cs) = false := by
        cases hs : startsWithUnk (c :: sub2Aux false cs)
        · rfl
        · exfalso
          obtain ⟨a, b2, c2, d, e, t, heq, ha, hu, hn, hk, hgt⟩ :=
            startsWithUnk_inv hs
          obtain ⟨hca, hrest⟩ := List.cons.inj heq
          obtain ⟨t2, ht2⟩ := sub2Aux_lift (unkTail_not_space hu hn hk hgt) hrest
          have hbuild : startsWithUnk (c :: cs) = true := by
            rw [ht2]
            exact startsWithUnk_build t2 (hca.trans ha) hu hn hk hgt
          rw [h1] at hbuild
          cases hbuild
      rw [hsw]
      rfl

theorem collapsed_sub2Aux (l : List Char) :
    (collapsed (sub2Aux true l) = true ∧
      headNotSpace (sub2Aux true l) = true) ∧
    collapsed (sub2Aux false l) = true := by
  induction l with
  | nil => exact ⟨⟨rfl, rfl⟩, rfl⟩
  | cons c cs ih =>
    obtain ⟨⟨iht, ihh⟩, ihf⟩ := ih
    by_cases hc : isPySpace c = true
    · refine ⟨⟨?_, ?_⟩, ?_⟩
      · rw [sub2Aux_true_cons, if_pos hc]
        exact iht
      · rw [sub2Aux_true_cons, if_pos hc]
        exact ihh
      · rw [sub2Aux_false_cons, if_pos hc, collapsed]
        simp [hc, iht, ihh]
    · have hcf : isPySpace c = false := by
        cases hx : isPySpace c
        · rfl
        · exact absurd hx hc
      have hredt : sub2Aux true (c :: cs) = c :: sub2Aux false cs := by
        rw [sub2Aux_true_cons, if_neg hc]
      have hredf : sub2Aux false (c :: cs) = c :: sub2Aux false cs := by
        rw [sub2Aux_false_cons, if_neg hc]
      refine ⟨⟨?_, ?_⟩, ?_⟩
      · rw [hredt, collapsed]
        simp [hcf, ihf]
      · rw [hredt]
        simp [headNotSpace, hcf]
      · rw [hredf, collapsed]
        simp [hcf, ihf]

theorem collapsed_sub2 (l : List Char) : collapsed (sub2 l) = true :=
  (collapsed_sub2Aux l).2

theorem sub2Aux_true_eq_false_of_headNot {m : List Char}
    (h : headNotSpace m = true) : sub2Aux true m = sub2Aux false m := by
  cases m with
  | nil => rfl
  | cons c cs =>
    have hcf : isPySpace c = false := by simpa [headNotSpace] using h
    rw [sub2Aux_true_cons, sub2Aux_false_cons, if_neg (by simp [hcf]),
      if_neg (by simp [hcf])]

theorem sub2_of_collapsed : ∀ {l : List Char}, collapsed l = true →
    sub2 l = l := by
  intro l
  induction l with
  | nil => intro _; rfl
  | cons c cs ih =>
    intro h
    rw [collapsed, Bool.and_eq_true] at h
    obtain ⟨h1, h2⟩ := h
    by_cases hc : isPySpace c = true
    · have h1b : (c == ' ') = true ∧ headNotSpace cs = true := by
        rw [hc] at h1
        simpa using h1
      have hceq : c = ' ' := by simpa using h1b.1
      show sub2Aux false (c :: cs) = c :: cs
      rw [sub2Aux_false_cons, if_pos hc,
        sub2Aux_true_eq_false_of_headNot h1b.2,
        show sub2Aux false cs = sub2 cs from rfl, ih h2, hceq]
    · show sub2Aux false (c :: cs) = c :: cs
      rw [sub2Aux_false_cons, if_neg hc,
        show sub2Aux false cs = sub2 cs from rfl, ih h2]

theorem collapsed_cons_tail {c : Char} {cs : List Char}
    (h : collapsed (c :: cs) = true) : collapsed cs = true := by
  rw [collapsed, Bool.and_eq_true] at h
  exact h.2

theorem collapsed_append_right : ∀ {l1 l2 : List Char},
    collapsed (l1 ++ l2) = true → collapsed l2 = true := by
  intro l1
  induction l1 with
  | nil => exact fun h => h
  | cons c cs ih =>
    intro l2 h
    rw [List.cons_append] at h
    exact ih (collapsed_cons_tail h)

theorem collapsed_append_left : ∀ {l1 l2 : List Char},
    collapsed (l1 ++ l2) = true → collapsed l1 = true := by
  intro l1
  induction l1 with
  | nil => intro l2 _; rfl
  | cons c cs ih =>
    intro l2 h
    rw [List.cons_append, collapsed, Bool.and_eq_true] at h
    obtain ⟨h1, h2⟩ := h
    rw [collapsed, Bool.and_eq_true]
    refine ⟨?_, ih h2⟩
    by_cases hc : isPySpace c = true
    · rw [hc] at h1 ⊢
      simp only [Bool.not_true, Bool.false_or, Bool.and_eq_true] at h1 ⊢
      refine ⟨h1.1, ?_⟩
      cases cs with
      | nil => rfl
      | cons d ds => simpa [headNotSpace, List.cons_append] using h1.2
    · have hcf : isPySpace c = false := by
        cases hx : isPySpace c
        · rfl
        · exact absurd hx hc
      rw [hcf]
      simp

theorem collapsed_dropWS {l : List Char} (h : collapsed l = true) :
    collapsed (dropWS l) = true := by
  have ht : l = l.takeWhile isPySpace ++ l.dropWhile isPySpace :=
    (List.takeWhile_append_dropWhile isPySpace l).symm
  rw [ht] at h
  exact collapsed_append_right h

theorem collapsed_rstripWS {l : List Char} (h : collapsed l = true) :
    collapsed (rstripWS l) = true := by
  obtain ⟨t, ht⟩ := rstripWS_decomp l
  rw [ht] at h
  exact collapsed_append_left h

theorem collapsed_stripWS {l : List Char} (h : collapsed l = true) :
    collapsed (stripWS l) = true :=
  collapsed_rstripWS (collapsed_dropWS h)

theorem hasUnk_stripWS {l : List Char} (h : hasUnk l = false) :
    hasUnk (stripWS l) = false :=
  hasUnk_rstripWS (hasUnk_dropWhile h)

theorem headNotSpace_dropWS (l : List Char) :
    headNotSpace (dropWS l) = true := by
  cases h : dropWS l with
  | nil => rfl
  | cons c cs =>
    rw [dropWS] at h
    simp [headNotSpace, dropWhile_head_false h]

theorem dropWS_of_headNot {l : List Char} (h : headNotSpace l = true) :
    dropWS l = l := by
  cases l with
  | nil => rfl
  | cons c cs =>
    have hcf : isPySpace c = false := by simpa [headNotSpace] using h
    rw [dropWS, List.dropWhile_cons_of_neg (by simp [hcf])]

theorem rstripWS_headNot {l : List Char} (h : headNotSpace l = true) :
    headNotSpace (rstripWS l) = true := by
  obtain ⟨t, ht⟩ := rstripWS_decomp l
  cases hr : rstripWS l with
  | nil => rfl
  | cons d ds =>
    rw [hr] at ht
    rw [ht] at h
    simpa [headNotSpace, List.cons_append] using h

theorem rstripWS_idem (l : List Char) :
    rstripWS (rstripWS l) = rstripWS l := by
  have h1 : (rstripWS l).reverse = l.reverse.dropWhile isPySpace := by
    rw [rstripWS, List.reverse_reverse]
  show ((rstripWS l).reverse.dropWhile isPySpace).reverse = rstripWS l
  rw [h1, dropWhile_self]
  rfl

theorem stripWS_idem (l : List Char) : stripWS (stripWS l) = stripWS l := by
  have hy : headNotSpace (rstripWS (dropWS l)) = true :=
    rstripWS_headNot (headNotSpace_dropWS l)
  show rstripWS (dropWS (rstripWS (dropWS l))) = rstripWS (dropWS l)
  rw [dropWS_of_headNot hy, rstripWS_idem]

/-- Claim C4: `clean_text` is idempotent — cleaning already-clean text
returns it unchanged. -/
theorem C4_clean_text_idem (s : String) :
    clean_text (clean_text s) = clean_text s := by
  have h1 : hasUnk (stripWS (sub2 (sub1 s.data))) = false :=
    hasUnk_stripWS (hasUnk_sub2Aux false (sub1 s.data) (hasUnk_sub1 s.data))
  have h2 : sub1 (stripWS (sub2 (sub1 s.data))) =
      stripWS (sub2 (sub1 s.data)) := sub1_of_noUnk h1
  have h3 : collapsed (stripWS (sub2 (sub1 s.data))) = true :=
    collapsed_stripWS (collapsed_sub2 (sub1 s.data))
  have h4 : sub2 (stripWS (sub2 (sub1 s.data))) =
      stripWS (sub2 (sub1 s.data)) := sub2_of_collapsed h3
  have h5 := stripWS_idem (sub2 (sub1 s.data))
  have hdata : (clean_text s).data = stripWS (sub2 (sub1 s.data)) := rfl
  show String.mk (stripWS (sub2 (sub1 (clean_text s).data))) = clean_text s
  rw [hdata, h2, h4, h5]
  rfl
